import Mathlib

/-!
Verification development for the `agentic-reporter` Playwright reporter.

Text is modelled as `List Char` (`Str`); JavaScript strings are lists of
characters and chunks of captured output are decoded text.  External library
functions at the interface boundary (node `crypto` SHA-1, `Math.sqrt`) are
modelled as explicit function parameters constrained by hypotheses.

Source files embedded here:
- `src/formatter.ts`   : `sanitizeId` (hash-suffixed variant) and the earlier
  collapse-only variant of the same function (`sanitizeIdV1`).
- `src/logProcessor.ts`: `getConsoleLogs` (circular-buffer implementation) and
  `truncateLogs`.
- `src/hints.ts`       : `DEFAULT_HINT_PATTERNS` and `classifyError`, plus the
  `detectSlowTests` statistical outlier detector of the reporter variant in the
  same file.
- `src/reporter.ts`    : the `AgenticReporter` run-state machine (`onTestEnd`,
  `emitFailure`, `deleteFailureReport`, `printFooter`, `onEnd`), with the
  asynchronous file operations modelled as an explicit pending-operation queue
  applied in scheduling order (the per-path ordering the design assumes).
-/

abbrev Str := List Char

/-- Convert a Lean string literal to the `List Char` representation. -/
def str (s : String) : Str := s.data

/-! ## Character classes and `sanitizeId` (`src/formatter.ts`) -/

/-- Characters kept by `formatter.ts`'s `sanitizeId` regex `[^a-zA-Z0-9-]+`
(everything else is replaced): ASCII letters, digits and hyphen. -/
def keepCharV2 (c : Char) : Bool :=
  (('a' ≤ c && c ≤ 'z') || ('A' ≤ c && c ≤ 'Z') || ('0' ≤ c && c ≤ '9') || c = '-')

/-- Characters kept by the earlier `sanitizeId` regex `[^a-zA-Z0-9_-]`:
ASCII letters, digits, underscore and hyphen. -/
def keepCharV1 (c : Char) : Bool :=
  (('a' ≤ c && c ≤ 'z') || ('A' ≤ c && c ≤ 'Z') || ('0' ≤ c && c ≤ '9') || c = '_' || c = '-')

/-- Replace every maximal run of underscores by a single underscore
(the effect of `replace(/_+/g, '_')`). -/
def collapseUnderscores : Str → Str
  | [] => []
  | [c] => [c]
  | c1 :: c2 :: rest =>
    if c1 = '_' && c2 = '_' then collapseUnderscores (c2 :: rest)
    else c1 :: collapseUnderscores (c2 :: rest)

/-- `formatter.ts` `sanitizeId`, step `str.replace(/[^a-zA-Z0-9-]+/g, '_')`:
each maximal run of disallowed characters becomes one underscore.  Since `_`
itself is disallowed by the character class, this equals mapping every
disallowed character to `_` and then collapsing runs of underscores. -/
def cleanV2 (s : Str) : Str :=
  collapseUnderscores (s.map (fun c => if keepCharV2 c then c else '_'))

/-- `formatter.ts` `sanitizeId`.  The node `crypto` SHA-1 hex digest sliced to
8 characters is external library code, modelled as the parameter `hash8`:
the result is `sanitized.slice(0, 200)` followed by `_` and `hash8 str`. -/
def sanitizeId (hash8 : Str → Str) (s : Str) : Str :=
  (cleanV2 s).take 200 ++ '_' :: hash8 s

/-- The earlier `sanitizeId` variant (collapse-only, no hash):
`str.replace(/[^a-zA-Z0-9_-]/g, '_').replace(/_+/g, '_').slice(0, 100)`. -/
def sanitizeIdV1 (s : Str) : Str :=
  (collapseUnderscores (s.map (fun c => if keepCharV1 c then c else '_'))).take 100

/-! ### Lemmas about `collapseUnderscores` -/

/-- `true` when the list contains no two adjacent underscores. -/
def noAdjacentUnderscores : Str → Bool
  | c1 :: c2 :: rest => !(c1 = '_' && c2 = '_') && noAdjacentUnderscores (c2 :: rest)
  | _ => true

theorem collapseUnderscores_cons (c : Char) (l : Str) :
    ∃ t, collapseUnderscores (c :: l) = c :: t := by
  induction l generalizing c with
  | nil => exact ⟨[], rfl⟩
  | cons c2 rest ih =>
    cases hu : (c = '_' && c2 = '_') with
    | false =>
      exact ⟨collapseUnderscores (c2 :: rest), by simp [collapseUnderscores, hu]⟩
    | true =>
      simp only [Bool.and_eq_true, decide_eq_true_eq] at hu
      obtain ⟨h1, h2⟩ := hu
      subst h1
      subst h2
      obtain ⟨t, ht⟩ := ih '_'
      exact ⟨t, by simp [collapseUnderscores, ht]⟩

theorem mem_collapseUnderscores {c : Char} {l : Str}
    (h : c ∈ collapseUnderscores l) : c ∈ l := by
  induction l with
  | nil => simp [collapseUnderscores] at h
  | cons c1 rest ih =>
    cases rest with
    | nil => simpa [collapseUnderscores] using h
    | cons c2 rest2 =>
      cases hu : (c1 = '_' && c2 = '_') with
      | true =>
        simp only [collapseUnderscores, hu, if_true] at h
        exact List.mem_cons_of_mem _ (ih h)
      | false =>
        simp only [collapseUnderscores, hu, Bool.false_eq_true, if_false,
          List.mem_cons] at h
        rcases h with h | h
        · exact h ▸ List.mem_cons_self _ _
        · exact List.mem_cons_of_mem _ (ih h)

theorem noAdjacentUnderscores_collapseUnderscores (l : Str) :
    noAdjacentUnderscores (collapseUnderscores l) = true := by
  induction l with
  | nil => rfl
  | cons c1 rest ih =>
    cases rest with
    | nil => rfl
    | cons c2 rest2 =>
      cases hu : (c1 = '_' && c2 = '_') with
      | true => simpa only [collapseUnderscores, hu, if_true] using ih
      | false =>
        obtain ⟨t, ht⟩ := collapseUnderscores_cons c2 rest2
        simp only [collapseUnderscores, hu, Bool.false_eq_true, if_false, ht]
        simp only [ht] at ih
        simp only [noAdjacentUnderscores, ih, Bool.and_true, Bool.not_eq_true']
        exact hu

theorem collapseUnderscores_of_noAdjacent {l : Str}
    (h : noAdjacentUnderscores l = true) : collapseUnderscores l = l := by
  induction l with
  | nil => rfl
  | cons c1 rest ih =>
    cases rest with
    | nil => rfl
    | cons c2 rest2 =>
      simp only [noAdjacentUnderscores, Bool.and_eq_true, Bool.not_eq_true'] at h
      simp only [collapseUnderscores, h.1, Bool.false_eq_true, if_false]
      rw [ih h.2]

theorem noAdjacentUnderscores_take {l : Str} (n : Nat)
    (h : noAdjacentUnderscores l = true) : noAdjacentUnderscores (l.take n) = true := by
  induction l generalizing n with
  | nil => simp [List.take_nil, noAdjacentUnderscores]
  | cons c1 rest ih =>
    cases n with
    | zero => rfl
    | succ m =>
      cases rest with
      | nil => cases m <;> rfl
      | cons c2 rest2 =>
        simp only [noAdjacentUnderscores, Bool.and_eq_true] at h
        cases m with
        | zero => simp [List.take_succ_cons, List.take_zero, noAdjacentUnderscores]
        | succ k =>
          have hrec := ih (n := k + 1) h.2
          simp only [List.take_succ_cons] at hrec ⊢
          simp only [noAdjacentUnderscores, Bool.and_eq_true]
          exact ⟨h.1, hrec⟩

/-! ### `sanitizeIdV1` idempotence and `sanitizeId` length bound (claim C2) -/

theorem keepCharV1_of_mem_sanitizeIdV1 {c : Char} {s : Str}
    (h : c ∈ sanitizeIdV1 s) : keepCharV1 c = true := by
  simp only [sanitizeIdV1] at h
  have h1 := List.mem_of_mem_take h
  have h2 := mem_collapseUnderscores h1
  obtain ⟨d, _, hfd⟩ := List.mem_map.mp h2
  by_cases hk : keepCharV1 d = true
  · rw [if_pos hk] at hfd
    exact hfd ▸ hk
  · rw [if_neg hk] at hfd
    rw [← hfd]
    rfl

theorem sanitizeIdV1_idem (s : Str) : sanitizeIdV1 (sanitizeIdV1 s) = sanitizeIdV1 s := by
  have hmem : ∀ c ∈ sanitizeIdV1 s, keepCharV1 c = true :=
    fun c hc => keepCharV1_of_mem_sanitizeIdV1 hc
  have hmap : (sanitizeIdV1 s).map (fun c => if keepCharV1 c then c else '_') =
      sanitizeIdV1 s := by
    have heq : (sanitizeIdV1 s).map (fun c => if keepCharV1 c then c else '_') =
        (sanitizeIdV1 s).map id :=
      List.map_congr_left (fun c hc => by simp [hmem c hc])
    simpa using heq
  have hnoadj : noAdjacentUnderscores (sanitizeIdV1 s) = true := by
    simp only [sanitizeIdV1]
    exact noAdjacentUnderscores_take 100 (noAdjacentUnderscores_collapseUnderscores _)
  have hlen : (sanitizeIdV1 s).length ≤ 100 := by
    simp only [sanitizeIdV1]
    exact List.length_take_le 100 _
  calc sanitizeIdV1 (sanitizeIdV1 s)
      = (collapseUnderscores ((sanitizeIdV1 s).map
          (fun c => if keepCharV1 c then c else '_'))).take 100 := rfl
    _ = (collapseUnderscores (sanitizeIdV1 s)).take 100 := by rw [hmap]
    _ = (sanitizeIdV1 s).take 100 := by rw [collapseUnderscores_of_noAdjacent hnoadj]
    _ = sanitizeIdV1 s := List.take_of_length_le hlen

theorem sanitizeId_length_le (hash8 : Str → Str)
    (hlen : ∀ x, (hash8 x).length = 8) (s : Str) :
    (sanitizeId hash8 s).length ≤ 209 := by
  simp only [sanitizeId, List.length_append, List.length_cons, hlen]
  have := List.length_take_le 200 (cleanV2 s)
  omega

/-! ## Log window extraction (`src/logProcessor.ts`) -/

/-- ASCII whitespace as removed by JavaScript `trim()`. -/
def jsWhitespace (c : Char) : Bool :=
  c = ' ' || c = '\t' || c = '\n' || c = '\r' || c = '\x0b' || c = '\x0c'

/-- A line is blank when `line.trim() === ''`. -/
def isBlankLine (l : Str) : Bool := l.all jsWhitespace

/-- `text.split('\n')`. -/
def splitOnNl : Str → List Str
  | [] => [[]]
  | c :: rest =>
    if c = '\n' then [] :: splitOnNl rest
    else
      match splitOnNl rest with
      | p :: ps => (c :: p) :: ps
      | [] => [[c]]

/-- `buffer.join('\n')`. -/
def joinNl : List Str → Str
  | [] => []
  | [l] => l
  | l :: l2 :: rest => l ++ '\n' :: joinNl (l2 :: rest)

/-- The non-blank lines of one chunk, in order: each chunk is split on
embedded line breaks and whitespace-only lines are dropped (the body of
`processChunk`). -/
def chunkNonBlankLines (chunk : Str) : List Str :=
  (splitOnNl chunk).filter (fun l => !isBlankLine l)

/-- All non-blank lines produced by a chunk sequence, in order. -/
def allNonBlankLines (chunks : List Str) : List Str :=
  (chunks.map chunkNonBlankLines).flatten

/-- The circular buffer of the finite-`maxLines` path: the line array plus
`writeIndex`. -/
structure RingState where
  buffer : List Str
  writeIndex : Nat

/-- Inserting one non-blank line into the circular buffer (`processChunk`):
grow while below capacity, otherwise overwrite at `writeIndex` and advance
it, wrapping to `0` at `maxLines`. -/
def pushLine (cap : Nat) (st : RingState) (line : Str) : RingState :=
  if st.buffer.length < cap then
    { buffer := st.buffer ++ [line], writeIndex := st.writeIndex }
  else
    { buffer := st.buffer.set st.writeIndex line,
      writeIndex := if st.writeIndex + 1 ≥ cap then 0 else st.writeIndex + 1 }

/-- Feed every line through the circular buffer, starting empty. -/
def ringBufferRun (cap : Nat) (lines : List Str) : RingState :=
  lines.foldl (pushLine cap) ⟨[], 0⟩

/-- Reconstruction of arrival order from the circular buffer: the oldest
element sits at `writeIndex`, so read from there and wrap. -/
def reconstructRing (cap : Nat) (st : RingState) : List Str :=
  if st.buffer.length < cap then st.buffer
  else st.buffer.drop st.writeIndex ++ st.buffer.take st.writeIndex

/-- The window of retained lines: all non-blank stdout lines then all
non-blank stderr lines, kept whole when `maxLines` is `Infinity` (`none`),
otherwise passed through the circular buffer and reconstructed. -/
def consoleWindow (stdoutChunks stderrChunks : List Str) (maxLines : Option Nat) :
    List Str :=
  match maxLines with
  | none => allNonBlankLines stdoutChunks ++ allNonBlankLines stderrChunks
  | some cap =>
    reconstructRing cap
      (ringBufferRun cap (allNonBlankLines stdoutChunks ++ allNonBlankLines stderrChunks))

/-- The fixed marker appended on a new line when character truncation fires. -/
def truncationMarker : Str := str "\n[...truncated]"

/-- `if (output.length > maxChars) output = output.slice(0, maxChars) +
'\n[...truncated]'` — with `maxChars = Infinity` (`none`) the comparison is
never true. -/
def capChars (maxChars : Option Nat) (output : Str) : Str :=
  match maxChars with
  | none => output
  | some mc => if output.length > mc then output.take mc ++ truncationMarker else output

/-- `getConsoleLogs` of `src/logProcessor.ts` (circular-buffer
implementation): empty at `maxLines == 0`, otherwise join the retained
window with newlines and apply character truncation.  `none` stands for
`Infinity` in both limits. -/
def getConsoleLogs (stdoutChunks stderrChunks : List Str)
    (maxLines maxChars : Option Nat) : Str :=
  if maxLines = some 0 then []
  else capChars maxChars (joinNl (consoleWindow stdoutChunks stderrChunks maxLines))

/-- The last `n` elements of a list (JavaScript `slice(-n)` for `n ≥ 1`). -/
def lastN (n : Nat) (l : List α) : List α := l.drop (l.length - n)

/-- `truncateLogs` of `src/logProcessor.ts`: split the already-extracted
string, keep the last `maxLines` lines when over the limit, re-join and apply
the same character truncation. -/
def truncateLogs (logs : Str) (maxLines maxChars : Option Nat) : Str :=
  if maxLines = some 0 then []
  else
    let lines := splitOnNl logs
    let kept :=
      match maxLines with
      | some ml => if lines.length > ml then lastN ml lines else lines
      | none => lines
    capChars maxChars (joinNl kept)

/-- Number of non-blank lines of a rendered string. -/
def countNonBlankLines (s : Str) : Nat :=
  ((splitOnNl s).filter (fun l => !isBlankLine l)).length

/-! ### Lemmas: splitting and joining -/

theorem splitOnNl_ne_nil (s : Str) : splitOnNl s ≠ [] := by
  cases s with
  | nil => simp [splitOnNl]
  | cons c rest =>
    by_cases h : c = '\n'
    · simp [splitOnNl, h]
    · simp only [splitOnNl, h, if_false]
      cases hs : splitOnNl rest <;> simp

theorem not_nl_mem_splitOnNl {p : Str} {s : Str} (h : p ∈ splitOnNl s) : '\n' ∉ p := by
  induction s generalizing p with
  | nil =>
    simp only [splitOnNl, List.mem_singleton] at h
    simp [h]
  | cons c rest ih =>
    by_cases hc : c = '\n'
    · simp only [splitOnNl, hc, if_true, List.mem_cons] at h
      rcases h with h | h
      · simp [h]
      · exact ih h
    · simp only [splitOnNl, hc, if_false] at h
      cases hs : splitOnNl rest with
      | nil => exact absurd hs (splitOnNl_ne_nil rest)
      | cons p0 ps =>
        simp only [hs, List.mem_cons] at h
        rcases h with h | h
        · subst h
          intro hmem
          rcases List.mem_cons.mp hmem with h | h
          · exact hc h.symm
          · exact ih (hs ▸ List.mem_cons_self p0 ps) h
        · exact ih (hs ▸ List.mem_cons_of_mem p0 h)

theorem joinNl_splitOnNl (s : Str) : joinNl (splitOnNl s) = s := by
  induction s with
  | nil => rfl
  | cons c rest ih =>
    by_cases hc : c = '\n'
    · subst hc
      simp only [splitOnNl, if_true]
      cases hs : splitOnNl rest with
      | nil => exact absurd hs (splitOnNl_ne_nil rest)
      | cons p ps =>
        rw [hs] at ih
        simp [joinNl, ih]
    · simp only [splitOnNl, hc, if_false]
      cases hs : splitOnNl rest with
      | nil => exact absurd hs (splitOnNl_ne_nil rest)
      | cons p ps =>
        rw [hs] at ih
        cases ps with
        | nil => simp_all [joinNl]
        | cons q qs => simp_all [joinNl]

theorem splitOnNl_append_of_no_nl {a : Str} (hnl : '\n' ∉ a) (b : Str) :
    splitOnNl (a ++ '\n' :: b) = a :: splitOnNl b := by
  induction a with
  | nil => simp [splitOnNl]
  | cons c rest ih =>
    have hc : c ≠ '\n' := fun h => hnl (h ▸ List.mem_cons_self c rest)
    have hrest : '\n' ∉ rest := fun h => hnl (List.mem_cons_of_mem c h)
    simp only [List.cons_append, splitOnNl, hc, if_false, List.append_eq]
    rw [ih hrest]

theorem splitOnNl_joinNl {lines : List Str} (hne : lines ≠ [])
    (hnl : ∀ l ∈ lines, '\n' ∉ l) : splitOnNl (joinNl lines) = lines := by
  induction lines with
  | nil => exact absurd rfl hne
  | cons l rest ih =>
    cases rest with
    | nil =>
      simp only [joinNl]
      have hl : '\n' ∉ l := hnl l (List.mem_cons_self l [])
      clear ih hne hnl
      induction l with
      | nil => rfl
      | cons c cs ihc =>
        have hc : c ≠ '\n' := fun h => hl (h ▸ List.mem_cons_self c cs)
        have hcs : '\n' ∉ cs := fun h => hl (List.mem_cons_of_mem c h)
        simp only [splitOnNl, hc, if_false, ihc hcs]
    | cons l2 rest2 =>
      have hl : '\n' ∉ l := hnl l (List.mem_cons_self _ _)
      have hrest : ∀ x ∈ l2 :: rest2, '\n' ∉ x :=
        fun x hx => hnl x (List.mem_cons_of_mem l hx)
      simp only [joinNl]
      rw [splitOnNl_append_of_no_nl hl, ih (by simp) hrest]

theorem splitOnNl_length (s : Str) : (splitOnNl s).length = s.count '\n' + 1 := by
  induction s with
  | nil => rfl
  | cons c rest ih =>
    by_cases hc : c = '\n'
    · subst hc
      simp [splitOnNl, ih, List.count_cons]
    · simp only [splitOnNl, hc, if_false]
      cases hs : splitOnNl rest with
      | nil => exact absurd hs (splitOnNl_ne_nil rest)
      | cons p ps =>
        rw [hs] at ih
        simp only [List.length_cons] at ih ⊢
        rw [List.count_cons]
        simp [hc, Ne.symm hc, ih]

/-! ### Lemmas: `lastN` -/

theorem lastN_of_length_le {l : List α} {n : Nat} (h : l.length ≤ n) : lastN n l = l := by
  simp [lastN, Nat.sub_eq_zero_of_le h]

theorem lastN_length (n : Nat) (l : List α) : (lastN n l).length = min n l.length := by
  simp only [lastN, List.length_drop]
  omega

theorem lastN_suffix (n : Nat) (l : List α) : lastN n l <:+ l :=
  ⟨l.take (l.length - n), List.take_append_drop _ _⟩

theorem lastN_cons_of_le {l : List α} {n : Nat} (h : n ≤ l.length) (a : α) :
    lastN n (a :: l) = lastN n l := by
  simp only [lastN, List.length_cons]
  have harith : l.length + 1 - n = (l.length - n) + 1 := by omega
  rw [harith, List.drop_succ_cons]

theorem lastN_absorb (n : Nat) (x y : List α) :
    lastN n (lastN n x ++ y) = lastN n (x ++ y) := by
  induction x with
  | nil => simp [lastN_of_length_le, lastN]
  | cons a x2 ih =>
    by_cases h : x2.length < n
    · rw [lastN_of_length_le (l := a :: x2) (by simp; omega)]
    · push_neg at h
      rw [lastN_cons_of_le h, List.cons_append,
        lastN_cons_of_le (le_trans h (by simp))]
      exact ih

theorem lastN_snoc_of_length_eq {x : List α} {cap : Nat} (hcap : 1 ≤ cap)
    (hx : x.length = cap) (a : α) : lastN cap (x ++ [a]) = x.drop 1 ++ [a] := by
  simp only [lastN, List.length_append, List.length_singleton, hx]
  have harith : cap + 1 - cap = 1 := by omega
  rw [harith]
  cases x with
  | nil => simp at hx; omega
  | cons b x2 => simp

/-! ### Lemmas: the circular buffer reconstructs arrival order -/

/-- Well-formedness maintained by the circular buffer: below capacity the
write index is still `0`; at capacity the write index is in range. -/
def ringWf (cap : Nat) (st : RingState) : Prop :=
  (st.buffer.length < cap ∧ st.writeIndex = 0) ∨
    (st.buffer.length = cap ∧ st.writeIndex < cap)

theorem reconstructRing_length_le {cap : Nat} {st : RingState} (h : ringWf cap st) :
    (reconstructRing cap st).length ≤ cap := by
  rcases h with ⟨hlt, _⟩ | ⟨heq, hwi⟩
  · simpa [reconstructRing, hlt] using Nat.le_of_lt hlt
  · have hnot : ¬ st.buffer.length < cap := by omega
    simp only [reconstructRing, hnot, if_false, List.length_append,
      List.length_drop, List.length_take]
    omega

theorem pushLine_reconstruct {cap : Nat} (hcap : 1 ≤ cap) {st : RingState}
    (hwf : ringWf cap st) (line : Str) :
    reconstructRing cap (pushLine cap st line) =
        lastN cap (reconstructRing cap st ++ [line]) ∧
      ringWf cap (pushLine cap st line) := by
  rcases hwf with ⟨hlt, hwi⟩ | ⟨heq, hwi⟩
  · have hle : st.buffer.length + 1 ≤ cap := hlt
    simp only [pushLine, hlt, if_true]
    have hrecon : reconstructRing cap st = st.buffer := by simp [reconstructRing, hlt]
    have hrecon2 :
        reconstructRing cap { buffer := st.buffer ++ [line], writeIndex := st.writeIndex } =
          st.buffer ++ [line] := by
      by_cases h2 : st.buffer.length + 1 < cap
      · simp [reconstructRing, h2]
      · have h3 : ¬ (st.buffer ++ [line]).length < cap := by
          simp only [List.length_append, List.length_singleton]
          omega
        simp [reconstructRing, h3, hwi]
    have hlen3 : (st.buffer ++ [line]).length ≤ cap := by
      simp only [List.length_append, List.length_singleton]
      omega
    constructor
    · rw [hrecon, hrecon2, lastN_of_length_le hlen3]
    · by_cases h2 : st.buffer.length + 1 < cap
      · exact Or.inl ⟨by simpa using h2, hwi⟩
      · exact Or.inr ⟨by simp only [List.length_append, List.length_singleton]; omega,
          by simpa [hwi] using hcap⟩
  · have hnot : ¬ st.buffer.length < cap := by omega
    have hwilt : st.writeIndex < st.buffer.length := by omega
    simp only [pushLine, hnot, if_false]
    have hset := List.set_eq_take_cons_drop line hwilt
    have hget := List.drop_eq_getElem_cons hwilt
    have hulen : (st.buffer.take st.writeIndex).length = st.writeIndex := by
      rw [List.length_take]
      omega
    have hrecon : reconstructRing cap st =
        (st.buffer[st.writeIndex] :: st.buffer.drop (st.writeIndex + 1)) ++
          st.buffer.take st.writeIndex := by
      simp only [reconstructRing, hnot, if_false]
      rw [hget]
    have hsetlen : (st.buffer.set st.writeIndex line).length = cap := by
      rw [List.length_set]
      exact heq
    have hnot2 : ¬ (st.buffer.set st.writeIndex line).length < cap := by omega
    have hfrontlen :
        ((st.buffer[st.writeIndex] :: st.buffer.drop (st.writeIndex + 1)) ++
            st.buffer.take st.writeIndex).length = cap := by
      simp only [List.length_append, List.length_cons, List.length_drop, hulen]
      omega
    have hsplit2 : st.buffer.set st.writeIndex line =
        (st.buffer.take st.writeIndex ++ [line]) ++
          st.buffer.drop (st.writeIndex + 1) := by
      rw [hset]
      simp
    have hlen2 : (st.buffer.take st.writeIndex ++ [line]).length =
        st.writeIndex + 1 := by
      simp [hulen]
    constructor
    · rw [hrecon, lastN_snoc_of_length_eq hcap hfrontlen line]
      have hdrop1 : ((st.buffer[st.writeIndex] :: st.buffer.drop (st.writeIndex + 1)) ++
          st.buffer.take st.writeIndex).drop 1 =
          st.buffer.drop (st.writeIndex + 1) ++ st.buffer.take st.writeIndex := by
        rw [List.cons_append, List.drop_succ_cons, List.drop_zero]
      rw [hdrop1]
      by_cases hw : st.writeIndex + 1 ≥ cap
      · have hveq : st.buffer.drop (st.writeIndex + 1) = [] :=
          List.drop_eq_nil_of_le (by omega)
        rw [if_pos hw]
        simp only [reconstructRing]
        rw [if_neg hnot2, List.drop_zero, List.take_zero, List.append_nil, hset, hveq]
        simp
      · rw [if_neg hw]
        simp only [reconstructRing]
        rw [if_neg hnot2, hsplit2, ← hlen2, List.drop_left, List.take_left,
          List.append_assoc]
    · refine Or.inr ⟨hsetlen, ?_⟩
      by_cases hw : st.writeIndex + 1 ≥ cap
      · simpa [hw] using hcap
      · simp only [ge_iff_le, hw, if_false]
        omega

theorem reconstruct_foldl {cap : Nat} (hcap : 1 ≤ cap) (lines : List Str) :
    ∀ st : RingState, ringWf cap st →
      reconstructRing cap (List.foldl (pushLine cap) st lines) =
        lastN cap (reconstructRing cap st ++ lines) := by
  induction lines with
  | nil =>
    intro st h
    simp only [List.foldl_nil, List.append_nil]
    exact (lastN_of_length_le (reconstructRing_length_le h)).symm
  | cons line rest ih =>
    intro st h
    obtain ⟨hstep, hwf2⟩ := pushLine_reconstruct hcap h line
    simp only [List.foldl_cons]
    rw [ih _ hwf2, hstep, lastN_absorb]
    congr 1
    simp

theorem pushLine_zero (line : Str) :
    pushLine 0 ⟨[], 0⟩ line = (⟨[], 0⟩ : RingState) := by
  simp [pushLine]

theorem ringBufferRun_zero (lines : List Str) :
    ringBufferRun 0 lines = (⟨[], 0⟩ : RingState) := by
  unfold ringBufferRun
  induction lines with
  | nil => rfl
  | cons line rest ih => simpa [List.foldl_cons, pushLine_zero] using ih

theorem consoleWindow_eq_lastN (stdoutChunks stderrChunks : List Str) (cap : Nat) :
    consoleWindow stdoutChunks stderrChunks (some cap) =
      lastN cap (allNonBlankLines stdoutChunks ++ allNonBlankLines stderrChunks) := by
  by_cases hcap : 1 ≤ cap
  · simp only [consoleWindow, ringBufferRun]
    rw [reconstruct_foldl hcap _ _ (Or.inl ⟨by simpa using hcap, rfl⟩)]
    congr 1
    simp [reconstructRing, hcap]
  · have hc0 : cap = 0 := by omega
    subst hc0
    simp only [consoleWindow, ringBufferRun_zero]
    simp [reconstructRing, lastN, List.drop_length]

/-! ### Properties of the retained window -/

theorem mem_allNonBlankLines {l : Str} {chunks : List Str}
    (h : l ∈ allNonBlankLines chunks) : isBlankLine l = false ∧ '\n' ∉ l := by
  simp only [allNonBlankLines, List.mem_flatten, List.mem_map] at h
  obtain ⟨piece, ⟨chunk, _, hchunk⟩, hmem⟩ := h
  rw [← hchunk] at hmem
  simp only [chunkNonBlankLines, List.mem_filter, Bool.not_eq_true'] at hmem
  exact ⟨hmem.2, not_nl_mem_splitOnNl hmem.1⟩

theorem consoleWindow_suffix (stdoutChunks stderrChunks : List Str)
    (maxLines : Option Nat) :
    consoleWindow stdoutChunks stderrChunks maxLines <:+
      (allNonBlankLines stdoutChunks ++ allNonBlankLines stderrChunks) := by
  cases maxLines with
  | none => exact List.suffix_refl _
  | some cap =>
    rw [consoleWindow_eq_lastN]
    exact lastN_suffix cap _

theorem mem_consoleWindow {l : Str} {stdoutChunks stderrChunks : List Str}
    {maxLines : Option Nat}
    (h : l ∈ consoleWindow stdoutChunks stderrChunks maxLines) :
    isBlankLine l = false ∧ '\n' ∉ l := by
  obtain ⟨t, ht⟩ := consoleWindow_suffix stdoutChunks stderrChunks maxLines
  have hmem : l ∈ allNonBlankLines stdoutChunks ++ allNonBlankLines stderrChunks := by
    rw [← ht]
    exact List.mem_append.mpr (Or.inr h)
  rcases List.mem_append.mp hmem with h2 | h2
  · exact mem_allNonBlankLines h2
  · exact mem_allNonBlankLines h2

theorem consoleWindow_length_le (stdoutChunks stderrChunks : List Str) (cap : Nat) :
    (consoleWindow stdoutChunks stderrChunks (some cap)).length ≤ cap := by
  rw [consoleWindow_eq_lastN, lastN_length]
  omega

theorem getConsoleLogs_eq_capChars (stdoutChunks stderrChunks : List Str)
    (maxLines maxChars : Option Nat) :
    getConsoleLogs stdoutChunks stderrChunks maxLines maxChars =
      capChars maxChars (joinNl (consoleWindow stdoutChunks stderrChunks maxLines)) := by
  by_cases h : maxLines = some 0
  · subst h
    have hwin : consoleWindow stdoutChunks stderrChunks (some 0) = [] := by
      rw [consoleWindow_eq_lastN]
      simp [lastN, List.drop_length]
    rw [hwin]
    simp only [getConsoleLogs, if_pos rfl]
    cases maxChars with
    | none => rfl
    | some mc => simp [capChars, joinNl]
  · simp [getConsoleLogs, h]

theorem countNonBlankLines_joinNl {w : List Str}
    (hnb : ∀ l ∈ w, isBlankLine l = false) (hnl : ∀ l ∈ w, '\n' ∉ l) :
    countNonBlankLines (joinNl w) = w.length := by
  cases hw : w with
  | nil => rfl
  | cons l rest =>
    rw [← hw]
    have hne : w ≠ [] := by simp [hw]
    rw [countNonBlankLines, splitOnNl_joinNl hne hnl]
    rw [List.filter_eq_self.mpr (fun a ha => by simp [hnb a ha])]

theorem countNonBlankLines_le_pieces (s : Str) :
    countNonBlankLines s ≤ s.count '\n' + 1 := by
  rw [← splitOnNl_length]
  exact List.length_filter_le _ _

/-! ## Claim C6: bounds of the extracted log window -/

/-- C6 counterexample: at `stdout = ["abcd"]`, `maxLines = 1`, `maxChars = 2`
the extractor returns `"ab\n[...truncated]"`, which contains two non-blank
lines — more than `maxLines`, because the truncation marker itself is a
non-blank line.  This falsifies the claim that the result never contains more
than `maxLines` non-blank lines. -/
theorem getConsoleLogs_maxLines_violation :
    1 < countNonBlankLines (getConsoleLogs [str "abcd"] [] (some 1) (some 2)) := by
  decide

/-- C6 (amended): for all non-negative `maxLines` and `maxChars`, the string
returned by `getConsoleLogs` has length at most `maxChars` plus the fixed
truncation marker, and contains at most `maxLines` non-blank lines plus, only
when character truncation fires, the one extra non-blank marker line. -/
theorem getConsoleLogs_bounds (stdoutChunks stderrChunks : List Str)
    (maxLines maxChars : Nat) :
    (getConsoleLogs stdoutChunks stderrChunks (some maxLines) (some maxChars)).length ≤
        maxChars + truncationMarker.length ∧
      countNonBlankLines
          (getConsoleLogs stdoutChunks stderrChunks (some maxLines) (some maxChars)) ≤
        maxLines +
          (if maxChars <
              (joinNl (consoleWindow stdoutChunks stderrChunks (some maxLines))).length
            then 1 else 0) := by
  rw [getConsoleLogs_eq_capChars]
  set w := consoleWindow stdoutChunks stderrChunks (some maxLines) with hw
  have hwlen : w.length ≤ maxLines := consoleWindow_length_le _ _ _
  have hnb : ∀ l ∈ w, isBlankLine l = false := fun l hl => (mem_consoleWindow hl).1
  have hnl : ∀ l ∈ w, '\n' ∉ l := fun l hl => (mem_consoleWindow hl).2
  by_cases htr : (joinNl w).length > maxChars
  · have hout : capChars (some maxChars) (joinNl w) =
        (joinNl w).take maxChars ++ truncationMarker := by
      simp [capChars, htr]
    rw [hout]
    constructor
    · simp only [List.length_append, List.length_take]
      omega
    · have hifeq : (if maxChars < (joinNl w).length then 1 else 0) = 1 := if_pos htr
      rw [hifeq]
      have hwne : w ≠ [] := by
        intro hemp
        rw [hemp] at htr
        simp [joinNl] at htr
      have hcount : ((joinNl w).take maxChars ++ truncationMarker).count '\n' =
          ((joinNl w).take maxChars).count '\n' + 1 := by
        rw [List.count_append]
        rfl
      have hle1 : ((joinNl w).take maxChars).count '\n' ≤ (joinNl w).count '\n' :=
        (List.take_sublist _ _).count_le _
      have hjcount : (joinNl w).count '\n' + 1 = w.length := by
        rw [← splitOnNl_length, splitOnNl_joinNl hwne hnl]
      have := countNonBlankLines_le_pieces ((joinNl w).take maxChars ++ truncationMarker)
      rw [hcount] at this
      omega
  · have hout : capChars (some maxChars) (joinNl w) = joinNl w := by
      simp [capChars, htr]
    rw [hout]
    push_neg at htr
    constructor
    · omega
    · rw [countNonBlankLines_joinNl hnb hnl]
      omega

/-! ## Claim C7: order preservation of the retained window -/

/-- C7: the retained lines form a suffix of "all non-blank stdout lines then
all non-blank stderr lines", hence preserve relative order within each stream
and place every retained stdout line before every retained stderr line
(including after ring-buffer wrap-around reconstruction); the returned string
is the newline-join of this window under character truncation. -/
theorem consoleWindow_order (stdoutChunks stderrChunks : List Str)
    (maxLines maxChars : Option Nat) :
    consoleWindow stdoutChunks stderrChunks maxLines <:+
        (allNonBlankLines stdoutChunks ++ allNonBlankLines stderrChunks) ∧
      ((∃ k, consoleWindow stdoutChunks stderrChunks maxLines =
          (allNonBlankLines stdoutChunks).drop k ++ allNonBlankLines stderrChunks) ∨
        (∃ k, consoleWindow stdoutChunks stderrChunks maxLines =
          (allNonBlankLines stderrChunks).drop k)) ∧
      getConsoleLogs stdoutChunks stderrChunks maxLines maxChars =
        capChars maxChars (joinNl (consoleWindow stdoutChunks stderrChunks maxLines)) := by
  refine ⟨consoleWindow_suffix _ _ _, ?_, getConsoleLogs_eq_capChars _ _ _ _⟩
  cases maxLines with
  | none =>
    left
    exact ⟨0, by simp [consoleWindow]⟩
  | some cap =>
    rw [consoleWindow_eq_lastN]
    set a := allNonBlankLines stdoutChunks with ha
    set b := allNonBlankLines stderrChunks with hb
    by_cases hk : (a ++ b).length - cap ≤ a.length
    · left
      exact ⟨(a ++ b).length - cap, by
        rw [lastN, List.drop_append_of_le_length hk]⟩
    · right
      push_neg at hk
      refine ⟨(a ++ b).length - cap - a.length, ?_⟩
      rw [lastN]
      have harith : (a ++ b).length - cap =
          a.length + ((a ++ b).length - cap - a.length) := by omega
      rw [harith, List.drop_append]
      congr 1
      omega

/-! ## Claim C8: the bounded view refines truncation of the full view -/

theorem truncateLogs_some {ml : Nat} (hml : ml ≠ 0) (logs : Str) (mc : Option Nat) :
    truncateLogs logs (some ml) mc =
      capChars mc (joinNl (if (splitOnNl logs).length > ml
        then lastN ml (splitOnNl logs) else splitOnNl logs)) := by
  have h0 : ¬ (some ml = some 0) := by simp [hml]
  simp only [truncateLogs, h0, if_false]

theorem truncateLogs_none (logs : Str) (mc : Option Nat) :
    truncateLogs logs none mc = capChars mc (joinNl (splitOnNl logs)) := by
  simp only [truncateLogs]
  rfl

/-- C8: for every captured output and all limits, truncating the full
(unbounded) extraction with `truncateLogs` yields exactly the bounded
extraction: `truncateLogs(getConsoleLogs(result, ∞, ∞), maxLines, maxChars) =
getConsoleLogs(result, maxLines, maxChars)`. -/
theorem truncateLogs_getConsoleLogs (stdoutChunks stderrChunks : List Str)
    (maxLines maxChars : Option Nat) :
    truncateLogs (getConsoleLogs stdoutChunks stderrChunks none none) maxLines maxChars =
      getConsoleLogs stdoutChunks stderrChunks maxLines maxChars := by
  have hfull : getConsoleLogs stdoutChunks stderrChunks none none =
      joinNl (allNonBlankLines stdoutChunks ++ allNonBlankLines stderrChunks) := by
    simp [getConsoleLogs, consoleWindow, capChars]
  have hnl : ∀ l ∈ allNonBlankLines stdoutChunks ++ allNonBlankLines stderrChunks,
      '\n' ∉ l := by
    intro l hl
    rcases List.mem_append.mp hl with h2 | h2
    · exact (mem_allNonBlankLines h2).2
    · exact (mem_allNonBlankLines h2).2
  rw [hfull, getConsoleLogs_eq_capChars]
  cases maxLines with
  | none =>
    rw [truncateLogs_none, joinNl_splitOnNl]
    rfl
  | some ml =>
    by_cases h0 : ml = 0
    · subst h0
      have hwin : consoleWindow stdoutChunks stderrChunks (some 0) = [] := by
        rw [consoleWindow_eq_lastN]
        simp [lastN, List.drop_length]
      rw [hwin]
      simp only [truncateLogs, if_pos rfl]
      cases maxChars with
      | none => rfl
      | some mc => simp [capChars, joinNl]
    · rw [truncateLogs_some h0, consoleWindow_eq_lastN]
      by_cases hcase : allNonBlankLines stdoutChunks ++ allNonBlankLines stderrChunks = []
      · rw [hcase]
        have h1 : ¬ (splitOnNl (joinNl ([] : List Str))).length > ml := by
          simp only [joinNl, splitOnNl, List.length_singleton]
          omega
        rw [if_neg h1]
        have h2 : lastN ml ([] : List Str) = [] := by simp [lastN]
        rw [h2]
        rfl
      · rw [splitOnNl_joinNl hcase hnl]
        by_cases hlarge : (allNonBlankLines stdoutChunks ++
            allNonBlankLines stderrChunks).length > ml
        · rw [if_pos hlarge]
        · rw [if_neg hlarge]
          push_neg at hlarge
          rw [lastN_of_length_le hlarge]

/-! ## Error classification (`src/hints.ts`) -/

/-- The classified error categories. -/
inductive ErrorType where
  | timeout
  | assertion
  | network
  | interrupted
  | unknown
deriving DecidableEq

/-- A hint rule: a regex (modelled as its match predicate `pattern` on the
message, standing for `pattern.test(message)`), a remediation hint and a
category. -/
structure HintPattern where
  pattern : Str → Bool
  hint : Str
  type : ErrorType

/-- Lower-case a string (for `i`-flagged regexes). -/
def lowerStr (s : Str) : Str := s.map Char.toLower

/-- Boolean prefix test on character lists. -/
def strPrefix : Str → Str → Bool
  | [], _ => true
  | _ :: _, [] => false
  | a :: as, b :: bs => a = b && strPrefix as bs

/-- Boolean substring test on character lists. -/
def strContains (hay pat : Str) : Bool :=
  (List.range (hay.length + 1)).any (fun i => strPrefix pat (hay.drop i))

/-- `/pat/i.test(msg)` for a literal lower-case pattern: case-insensitive
substring test. -/
def icontains (pat : String) (msg : Str) : Bool :=
  strContains (lowerStr msg) (str pat)

/-- `/pat/.test(msg)` for a literal pattern: case-sensitive substring test. -/
def containsLit (pat : String) (msg : Str) : Bool :=
  strContains msg (str pat)

/-- `/a.*b/i.test(msg)`: some occurrence of `a` followed by an occurrence of
`b` with no line terminator in between (JavaScript `.` does not match line
breaks), case-insensitively. -/
def seqMatchI (a b : String) (msg : Str) : Bool :=
  (List.range ((lowerStr msg).length + 1)).any (fun i =>
    strPrefix (str a) ((lowerStr msg).drop i) &&
      strContains
        (((lowerStr msg).drop (i + (str a).length)).takeWhile
          (fun c => !(c = '\n') && !(c = '\r')))
        (str b))

/-- `DEFAULT_HINT_PATTERNS` of `src/hints.ts`: the ordered built-in rule
table, each regex rendered as its match predicate. -/
def DEFAULT_HINT_PATTERNS : List HintPattern := [
  { pattern := icontains "timeout",
    hint := str "Selector missing/hidden? Check element visibility, increase timeout, or verify the page loaded.",
    type := ErrorType.timeout },
  { pattern := seqMatchI "waitfor" "selector",
    hint := str "Element not found. Verify the selector, check if content is dynamically loaded.",
    type := ErrorType.timeout },
  { pattern := icontains "locator.click",
    hint := str "Click action failed. Element may be detached, obscured, or not clickable.",
    type := ErrorType.timeout },
  { pattern := icontains "expect(received).to",
    hint := str "Assertion mismatch. Check if data needs normalization (trim, lowercase, type coercion).",
    type := ErrorType.assertion },
  { pattern := seqMatchI "expected" "received",
    hint := str "Value mismatch. Compare expected vs actual carefully - check for whitespace or encoding.",
    type := ErrorType.assertion },
  { pattern := icontains "tobevisible",
    hint := str "Element visibility check failed. Check if element exists, is in viewport, or has display:none.",
    type := ErrorType.assertion },
  { pattern := icontains "tohaveurl",
    hint := str "URL assertion failed. Check routing, redirects, or if navigation completed.",
    type := ErrorType.assertion },
  { pattern := fun m => containsLit "500" m || containsLit "502" m ||
      containsLit "503" m || containsLit "504" m,
    hint := str "Server error. Check API logs, backend availability, or database connections.",
    type := ErrorType.network },
  { pattern := fun m => containsLit "401" m || containsLit "403" m,
    hint := str "Authentication/Authorization error. Check credentials, tokens, or permissions.",
    type := ErrorType.network },
  { pattern := containsLit "404",
    hint := str "Resource not found. Verify the URL, route configuration, or if the resource exists.",
    type := ErrorType.network },
  { pattern := fun m => icontains "econnrefused" m || icontains "enotfound" m ||
      seqMatchI "fetch" "failed" m,
    hint := str "Network connection failed. Is the server running? Check URL and port.",
    type := ErrorType.network },
  { pattern := icontains "interrupted",
    hint := str "Test was interrupted (user cancelled or CI timeout).",
    type := ErrorType.interrupted } ]

/-- First rule in the list whose pattern matches the message (the shared
shape of both loops of `classifyError`). -/
def findFirstMatch (msg : Str) : List HintPattern → Option HintPattern
  | [] => none
  | p :: ps => if p.pattern msg then some p else findFirstMatch msg ps

/-- The default hint returned when no rule matches. -/
def unknownHint : Str :=
  str "Check the stack trace for logic errors or unexpected state."

/-- `classifyError` of `src/hints.ts`: check custom patterns first, then the
built-in table, and fall back to the `unknown` category. -/
def classifyError (msg : Str) (customPatterns : List HintPattern) : ErrorType × Str :=
  match findFirstMatch msg customPatterns with
  | some p => (p.type, p.hint)
  | none =>
    match findFirstMatch msg DEFAULT_HINT_PATTERNS with
    | some p => (p.type, p.hint)
    | none => (ErrorType.unknown, unknownHint)

/-- Modelled from the spec (section 4.3), for comparison with `classifyError`:
evaluate the custom rules and then the built-in rules as one ordered list,
return the `{type, hint}` of the first rule whose pattern matches, and return
the default unknown-category result when none match. -/
def classifySpec (msg : Str) (customPatterns : List HintPattern) : ErrorType × Str :=
  match findFirstMatch msg (customPatterns ++ DEFAULT_HINT_PATTERNS) with
  | some p => (p.type, p.hint)
  | none => (ErrorType.unknown, unknownHint)

/-! ## Claim C5: classifier evaluation order and default result -/

/-- C5 counterexample: on the message `"x"` no rule matches, and
`classifyError` returns the hint `"Check the stack trace for logic errors or
unexpected state."` — not the `"inspect stack trace"` default the claim
states. -/
theorem classifyError_default_hint_ne :
    classifyError (str "x") [] ≠ (ErrorType.unknown, str "inspect stack trace") := by
  decide

/-- C5 (amended): `classifyError` evaluates the custom rules in order before
the built-in table and returns the `{type, hint}` of the first matching rule
(in particular a matching custom rule always beats every built-in rule), and
when no rule matches it returns the default
`{type: unknown, hint: "Check the stack trace for logic errors or unexpected
state."}` — equivalently, it agrees everywhere with the single-pass
first-match specification `classifySpec`. -/
theorem classifyError_eq_classifySpec (msg : Str) (customPatterns : List HintPattern) :
    classifyError msg customPatterns = classifySpec msg customPatterns := by
  induction customPatterns with
  | nil => rfl
  | cons p ps ih =>
    by_cases h : p.pattern msg = true
    · simp [classifyError, classifySpec, findFirstMatch, h]
    · simp only [classifyError, classifySpec, List.cons_append, findFirstMatch, h,
        Bool.false_eq_true, if_false] at ih ⊢
      exact ih

/-! ## Slow-test detection (`src/hints.ts`, reporter variant) -/

/-- `detectSlowTests`: with fewer than two completed samples return nothing;
otherwise compute the population mean and standard deviation of the completed
durations, set the threshold to `mean + maxSlowTestThreshold * stdDev` and
keep the tests whose duration strictly exceeds it.  Durations are exact
rationals and `Math.sqrt` is the external math-library parameter `sqrt`. -/
def detectSlowTests (sqrt : ℚ → ℚ) (maxSlowTestThreshold : ℚ)
    (completedTests : List (Str × ℚ)) : List (Str × ℚ) :=
  if completedTests.length < 2 then []
  else
    let durations := completedTests.map (fun t => t.2)
    let mean := durations.sum / (durations.length : ℚ)
    let variance := (durations.map (fun b => (b - mean) ^ 2)).sum / (durations.length : ℚ)
    let stdDev := sqrt variance
    let slowThreshold := mean + maxSlowTestThreshold * stdDev
    completedTests.filter (fun t => t.2 > slowThreshold)

/-- The durations of the claim-C9 scenario. -/
def slowScenario : List (Str × ℚ) :=
  [(str "t1", 100), (str "t2", 100), (str "t3", 100), (str "t4", 100), (str "t5", 900)]

/-! ## Claim C9: slow-test detector scenario -/

/-- C9: on durations `[100,100,100,100,900]` (population mean 260, variance
102400, standard deviation 320), a multiplier of 1 gives threshold 580 and
flags exactly the 900ms test; a multiplier of 5 gives threshold 1860 and
flags nothing; and with fewer than two samples the detector returns the empty
list.  The hypothesis pins `Math.sqrt` at the one point it is applied to
(`√102400 = 320`, exact). -/
theorem detectSlowTests_scenario (sqrt : ℚ → ℚ) (hsqrt : sqrt 102400 = 320) :
    detectSlowTests sqrt 1 slowScenario = [(str "t5", 900)] ∧
      detectSlowTests sqrt 5 slowScenario = [] ∧
      ∀ (l : List (Str × ℚ)) (k : ℚ), l.length < 2 → detectSlowTests sqrt k l = [] := by
  refine ⟨?_, ?_, ?_⟩
  · simp only [detectSlowTests, slowScenario]
    norm_num [List.filter, hsqrt]
  · simp only [detectSlowTests, slowScenario]
    norm_num [List.filter, hsqrt]
  · intro l k h
    simp [detectSlowTests, h]

/-- Concrete model of `Math.sqrt` adequate for the scenario. -/
def sqrtModel : ℚ → ℚ := fun q => if q = 102400 then 320 else 0

/-- Witness for C9 at the concrete square root. -/
theorem detectSlowTests_scenario_witness :
    detectSlowTests sqrtModel 1 slowScenario = [(str "t5", 900)] ∧
      detectSlowTests sqrtModel 5 slowScenario = [] := by
  have h := detectSlowTests_scenario sqrtModel (by simp [sqrtModel])
  exact ⟨h.1, h.2.1⟩

/-! ## The run aggregator (`src/reporter.ts`) -/

/-- Playwright result statuses handled by the reporter. -/
inductive Status where
  | passed
  | failed
  | timedOut
  | skipped
  | interrupted
deriving DecidableEq

/-- The per-test data the reporter reads from the `TestCase`:
`test.titlePath()` and `test.retries`. -/
structure TestInfo where
  titlePath : List Str
  retries : Nat
deriving DecidableEq

/-- The per-result data the reporter reads from the `TestResult`. -/
structure ResultInfo where
  status : Status
  duration : Nat
  retry : Nat
deriving DecidableEq

/-- A scheduled asynchronous filesystem operation (`mkdir`+`writeFile`
chains and `unlink` calls pushed onto `pendingFileOps`). -/
inductive FileOp where
  | write (name : Str)
  | del (name : Str)
deriving DecidableEq

/-- The final `<result_summary>` data emitted by `printFooter`, together with
the suppressed count of the overflow warning. -/
structure Summary where
  status : Str
  passed : Nat
  failed : Int
  skipped : Nat
  flaky : Nat
  duration : Nat
  suppressed : Nat
deriving DecidableEq

/-- The options the state machine reads (`maxFailures`, with `none` standing
for `Infinity`, and `enableDetailedReport`). -/
structure RepOptions where
  maxFailures : Option Nat
  enableDetailedReport : Bool
deriving DecidableEq

/-- The reporter's run-scoped state.  `onDiskReports` models the external
filesystem contents (the detail files currently on disk); scheduled
operations are applied to it in scheduling order when the pending queue
settles, matching the per-path ordering the design assumes. -/
structure RepState where
  failureCount : Int
  passedCount : Nat
  skippedCount : Nat
  flakyCount : Nat
  totalDuration : Nat
  suppressedCount : Nat
  existingReports : List Str
  pendingFileOps : List FileOp
  onDiskReports : List Str
  failedTestIdCounts : List (Str × Nat)
  terminated : Bool
  emittedSummary : Option Summary
deriving DecidableEq

/-- Set-style insertion into a name list (`Set.add`). -/
def insertName (n : Str) (l : List Str) : List Str :=
  if n ∈ l then l else l ++ [n]

/-- Set-style removal from a name list (`Set.delete`). -/
def removeName (n : Str) (l : List Str) : List Str :=
  l.filter (fun m => ¬ m = n)

/-- `failedTestIdCounts.get(fid) || 0` on the association-list model of the
map. -/
def lookupCount (fid : Str) (m : List (Str × Nat)) : Nat :=
  match m.find? (fun e => e.1 = fid) with
  | some e => e.2
  | none => 0

/-- `failedTestIdCounts.delete(fid)`. -/
def eraseCount (fid : Str) (m : List (Str × Nat)) : List (Str × Nat) :=
  m.filter (fun e => ¬ e.1 = fid)

/-- `failedTestIdCounts.set(fid, v)`: replace the (unique) binding. -/
def setCount (fid : Str) (v : Nat) (m : List (Str × Nat)) : List (Str × Nat) :=
  (fid, v) :: eraseCount fid m

/-- `sanitizeId(test.titlePath().join('_'))`. -/
def failureIdOf (hash8 : Str → Str) (t : TestInfo) : Str :=
  sanitizeId hash8 (List.intercalate ['_'] t.titlePath)

/-- The detail-file name `` `${failureId}-details.xml` ``. -/
def reportFileName (hash8 : Str → Str) (t : TestInfo) : Str :=
  failureIdOf hash8 t ++ str "-details.xml"

/-- `deleteFailureReport`: when detail reports are enabled and the file is
known to exist, remove it from the known-existing set and schedule an
unlink. -/
def deleteFailureReport (opts : RepOptions) (hash8 : Str → Str) (st : RepState)
    (t : TestInfo) : RepState :=
  if opts.enableDetailedReport = false then st
  else
    let fileName := reportFileName hash8 t
    if fileName ∈ st.existingReports then
      { st with existingReports := removeName fileName st.existingReports,
                pendingFileOps := st.pendingFileOps ++ [FileOp.del fileName] }
    else st

/-- The file-scheduling effect of `emitFailure`: when detail reports are
enabled, schedule the `mkdir`+`writeFile` chain for this identity's detail
file (registration in `existingReports` happens when the write settles). -/
def emitFailure (opts : RepOptions) (hash8 : Str → Str) (st : RepState)
    (t : TestInfo) : RepState :=
  if opts.enableDetailedReport then
    { st with pendingFileOps :=
        st.pendingFileOps ++ [FileOp.write (reportFileName hash8 t)] }
  else st

/-- `failureCount > maxFailures`, with `maxFailures = Infinity` never
exceeded. -/
def exceedsMax (c : Int) : Option Nat → Bool
  | some m => c > (m : Int)
  | none => false

/-- `printFooter`: emit the overflow warning (when suppressed) and the
result summary from the current counters. -/
def printFooter (status : Str) (st : RepState) : RepState :=
  { st with emittedSummary := some {
      status := status,
      passed := st.passedCount,
      failed := st.failureCount,
      skipped := st.skippedCount,
      flaky := st.flakyCount,
      duration := st.totalDuration,
      suppressed := st.suppressedCount } }

/-- `onTestEnd` of `src/reporter.ts`: the central transition function.
`process.exit(1)` is modelled by the `terminated` flag, after which no
further event is processed. -/
def onTestEnd (opts : RepOptions) (hash8 : Str → Str) (st : RepState)
    (t : TestInfo) (r : ResultInfo) : RepState :=
  if st.terminated then st
  else
    let st1 := { st with totalDuration := st.totalDuration + r.duration }
    match r.status with
    | Status.skipped => { st1 with skippedCount := st1.skippedCount + 1 }
    | Status.passed =>
      if r.retry = 0 then
        deleteFailureReport opts hash8
          { st1 with passedCount := st1.passedCount + 1 } t
      else
        let fid := failureIdOf hash8 t
        let previousFailures := lookupCount fid st1.failedTestIdCounts
        let st2 := { st1 with flakyCount := st1.flakyCount + 1 }
        if 0 < previousFailures then
          { st2 with failureCount := st2.failureCount - previousFailures,
                     failedTestIdCounts := eraseCount fid st2.failedTestIdCounts }
        else st2
    | _ =>
      if r.retry < t.retries then st1
      else
        let fid := failureIdOf hash8 t
        let st2 := { st1 with
          failureCount := st1.failureCount + 1,
          failedTestIdCounts :=
            setCount fid (lookupCount fid st1.failedTestIdCounts + 1)
              st1.failedTestIdCounts }
        if exceedsMax st2.failureCount opts.maxFailures then
          printFooter (str "failed")
            { st2 with suppressedCount := st2.suppressedCount + 1,
                       terminated := true }
        else
          emitFailure opts hash8 st2 t

/-- Completion of one scheduled filesystem operation: a settled write puts
the file on disk and registers it in `existingReports` (the `.then` chain);
a settled unlink removes the file (deletion failures are swallowed). -/
def applyFileOp (st : RepState) : FileOp → RepState
  | FileOp.write n =>
    { st with onDiskReports := insertName n st.onDiskReports,
              existingReports := insertName n st.existingReports }
  | FileOp.del n => { st with onDiskReports := removeName n st.onDiskReports }

/-- `await Promise.all(this.pendingFileOps)`: all scheduled operations
settle, in scheduling order. -/
def settleFileOps (st : RepState) : RepState :=
  { st.pendingFileOps.foldl applyFileOp st with pendingFileOps := [] }

/-- `onEnd`: await pending file operations, then print the footer. -/
def onEnd (st : RepState) (status : Str) : RepState :=
  printFooter status (settleFileOps st)

/-- The freshly initialised run state. -/
def initState : RepState :=
  { failureCount := 0, passedCount := 0, skippedCount := 0, flakyCount := 0,
    totalDuration := 0, suppressedCount := 0, existingReports := [],
    pendingFileOps := [], onDiskReports := [], failedTestIdCounts := [],
    terminated := false, emittedSummary := none }

/-- Process a sequence of `onTestEnd` events from the fresh state. -/
def runTests (opts : RepOptions) (hash8 : Str → Str)
    (events : List (TestInfo × ResultInfo)) : RepState :=
  events.foldl (fun st e => onTestEnd opts hash8 st e.1 e.2) initState

/-! ### The failure-count/tracking-map invariant (claim C10) -/

/-- Total of all per-identity failure contributions currently tracked. -/
def countsTotal (m : List (Str × Nat)) : Nat := (m.map (fun e => e.2)).sum

theorem countsTotal_filter_le (p : Str × Nat → Bool) (m : List (Str × Nat)) :
    countsTotal (m.filter p) ≤ countsTotal m := by
  induction m with
  | nil => simp [countsTotal]
  | cons e rest ih =>
    by_cases h : p e = true
    · simpa [countsTotal, List.filter_cons, h] using ih
    · simp only [countsTotal, List.filter_cons, h, Bool.false_eq_true, if_false,
        List.map_cons, List.sum_cons] at ih ⊢
      omega

theorem lookup_add_erase_le (fid : Str) (m : List (Str × Nat)) :
    lookupCount fid m + countsTotal (eraseCount fid m) ≤ countsTotal m := by
  induction m with
  | nil => simp [lookupCount, eraseCount, countsTotal]
  | cons e rest ih =>
    by_cases h : e.1 = fid
    · have h1 : lookupCount fid (e :: rest) = e.2 := by
        rw [lookupCount, List.find?_cons_of_pos _ (by simpa using h)]
      have h2 : eraseCount fid (e :: rest) = eraseCount fid rest := by
        simp [eraseCount, List.filter_cons, h]
      rw [h1, h2]
      have h3 := countsTotal_filter_le (fun e => ¬ e.1 = fid) rest
      simp only [countsTotal, List.map_cons, List.sum_cons]
      have h4 : countsTotal (eraseCount fid rest) ≤ countsTotal rest := h3
      simp only [countsTotal] at h4
      omega
    · have h1 : lookupCount fid (e :: rest) = lookupCount fid rest := by
        rw [lookupCount, List.find?_cons_of_neg _ (by simpa using h), lookupCount]
      have h2 : eraseCount fid (e :: rest) = e :: eraseCount fid rest := by
        simp [eraseCount, List.filter_cons, h]
      rw [h1, h2]
      simp only [countsTotal, List.map_cons, List.sum_cons] at ih ⊢
      omega

theorem countsTotal_setCount_le (fid : Str) (m : List (Str × Nat)) :
    countsTotal (setCount fid (lookupCount fid m + 1) m) ≤ countsTotal m + 1 := by
  have h := lookup_add_erase_le fid m
  simp only [setCount, countsTotal, List.map_cons, List.sum_cons]
  simp only [countsTotal] at h
  omega

/-- The invariant relating the failure counter to the tracking map: the
counter dominates the total tracked contribution. -/
def failInv (st : RepState) : Prop :=
  (countsTotal st.failedTestIdCounts : Int) ≤ st.failureCount

/-! ### Branch equations for `onTestEnd` -/

theorem onTestEnd_terminated {st : RepState} (opts : RepOptions) (hash8 : Str → Str)
    (t : TestInfo) (r : ResultInfo) (h : st.terminated = true) :
    onTestEnd opts hash8 st t r = st := by
  simp [onTestEnd, h]

theorem onTestEnd_skipped {st : RepState} {r : ResultInfo} (opts : RepOptions)
    (hash8 : Str → Str) (t : TestInfo) (h : st.terminated = false)
    (hs : r.status = Status.skipped) :
    onTestEnd opts hash8 st t r =
      { st with totalDuration := st.totalDuration + r.duration,
                skippedCount := st.skippedCount + 1 } := by
  obtain ⟨rs, rd, rr⟩ := r
  simp only at hs
  subst hs
  simp [onTestEnd, h]

theorem onTestEnd_passed_clean {st : RepState} {r : ResultInfo} (opts : RepOptions)
    (hash8 : Str → Str) (t : TestInfo) (h : st.terminated = false)
    (hs : r.status = Status.passed) (hr : r.retry = 0) :
    onTestEnd opts hash8 st t r =
      deleteFailureReport opts hash8
        { st with totalDuration := st.totalDuration + r.duration,
                  passedCount := st.passedCount + 1 } t := by
  obtain ⟨rs, rd, rr⟩ := r
  simp only at hs hr
  subst hs
  subst hr
  simp [onTestEnd, h]

theorem onTestEnd_flaky_correct {st : RepState} {r : ResultInfo} (opts : RepOptions)
    (hash8 : Str → Str) (t : TestInfo) (h : st.terminated = false)
    (hs : r.status = Status.passed) (hr : r.retry ≠ 0)
    (hp : 0 < lookupCount (failureIdOf hash8 t) st.failedTestIdCounts) :
    onTestEnd opts hash8 st t r =
      { st with totalDuration := st.totalDuration + r.duration,
                flakyCount := st.flakyCount + 1,
                failureCount := st.failureCount -
                  (lookupCount (failureIdOf hash8 t) st.failedTestIdCounts : Int),
                failedTestIdCounts :=
                  eraseCount (failureIdOf hash8 t) st.failedTestIdCounts } := by
  obtain ⟨rs, rd, rr⟩ := r
  simp only at hs hr
  subst hs
  simp [onTestEnd, h, hr, hp]

theorem onTestEnd_flaky_fresh {st : RepState} {r : ResultInfo} (opts : RepOptions)
    (hash8 : Str → Str) (t : TestInfo) (h : st.terminated = false)
    (hs : r.status = Status.passed) (hr : r.retry ≠ 0)
    (hp : lookupCount (failureIdOf hash8 t) st.failedTestIdCounts = 0) :
    onTestEnd opts hash8 st t r =
      { st with totalDuration := st.totalDuration + r.duration,
                flakyCount := st.flakyCount + 1 } := by
  obtain ⟨rs, rd, rr⟩ := r
  simp only at hs hr
  subst hs
  simp [onTestEnd, h, hr, hp]

/-- The three failing statuses. -/
def isFailingStatus (s : Status) : Prop :=
  s = Status.failed ∨ s = Status.timedOut ∨ s = Status.interrupted

theorem onTestEnd_fail_intermediate {st : RepState} {r : ResultInfo} (opts : RepOptions)
    (hash8 : Str → Str) (t : TestInfo) (h : st.terminated = false)
    (hs : isFailingStatus r.status) (hr : r.retry < t.retries) :
    onTestEnd opts hash8 st t r =
      { st with totalDuration := st.totalDuration + r.duration } := by
  obtain ⟨rs, rd, rr⟩ := r
  simp only [isFailingStatus] at hs
  simp only at hr
  rcases hs with hs | hs | hs <;> subst hs <;>
    simp [onTestEnd, h, hr]

theorem onTestEnd_fail_overflow {st : RepState} {r : ResultInfo} (opts : RepOptions)
    (hash8 : Str → Str) (t : TestInfo) (h : st.terminated = false)
    (hs : isFailingStatus r.status) (hr : ¬ r.retry < t.retries)
    (hguard : exceedsMax (st.failureCount + 1) opts.maxFailures = true) :
    onTestEnd opts hash8 st t r =
      printFooter (str "failed")
        { st with totalDuration := st.totalDuration + r.duration,
                  failureCount := st.failureCount + 1,
                  failedTestIdCounts := setCount (failureIdOf hash8 t)
                    (lookupCount (failureIdOf hash8 t) st.failedTestIdCounts + 1)
                    st.failedTestIdCounts,
                  suppressedCount := st.suppressedCount + 1,
                  terminated := true } := by
  obtain ⟨rs, rd, rr⟩ := r
  simp only [isFailingStatus] at hs
  simp only at hr
  rcases hs with hs | hs | hs <;> subst hs <;>
    simp [onTestEnd, h, hr, hguard]

theorem onTestEnd_fail_emit {st : RepState} {r : ResultInfo} (opts : RepOptions)
    (hash8 : Str → Str) (t : TestInfo) (h : st.terminated = false)
    (hs : isFailingStatus r.status) (hr : ¬ r.retry < t.retries)
    (hguard : exceedsMax (st.failureCount + 1) opts.maxFailures = false) :
    onTestEnd opts hash8 st t r =
      emitFailure opts hash8
        { st with totalDuration := st.totalDuration + r.duration,
                  failureCount := st.failureCount + 1,
                  failedTestIdCounts := setCount (failureIdOf hash8 t)
                    (lookupCount (failureIdOf hash8 t) st.failedTestIdCounts + 1)
                    st.failedTestIdCounts } t := by
  obtain ⟨rs, rd, rr⟩ := r
  simp only [isFailingStatus] at hs
  simp only at hr
  rcases hs with hs | hs | hs <;> subst hs <;>
    simp [onTestEnd, h, hr, hguard]

theorem deleteFailureReport_counts (opts : RepOptions) (hash8 : Str → Str)
    (st : RepState) (t : TestInfo) :
    (deleteFailureReport opts hash8 st t).failureCount = st.failureCount ∧
      (deleteFailureReport opts hash8 st t).failedTestIdCounts =
        st.failedTestIdCounts := by
  by_cases he : opts.enableDetailedReport = false
  · simp [deleteFailureReport, he]
  · by_cases hm : reportFileName hash8 t ∈ st.existingReports
    · simp [deleteFailureReport, he, hm]
    · simp [deleteFailureReport, he, hm]

theorem emitFailure_counts (opts : RepOptions) (hash8 : Str → Str)
    (st : RepState) (t : TestInfo) :
    (emitFailure opts hash8 st t).failureCount = st.failureCount ∧
      (emitFailure opts hash8 st t).failedTestIdCounts = st.failedTestIdCounts := by
  by_cases he : opts.enableDetailedReport = true
  · simp [emitFailure, he]
  · simp [emitFailure, he]

theorem onTestEnd_failInv_failing {st : RepState} {r : ResultInfo} (opts : RepOptions)
    (hash8 : Str → Str) (t : TestInfo) (hterm : st.terminated = false)
    (hs : isFailingStatus r.status) (h : failInv st) :
    failInv (onTestEnd opts hash8 st t r) := by
  by_cases hretry : r.retry < t.retries
  · rw [onTestEnd_fail_intermediate opts hash8 t hterm hs hretry]
    exact h
  · have hset := countsTotal_setCount_le (failureIdOf hash8 t) st.failedTestIdCounts
    by_cases hguard : exceedsMax (st.failureCount + 1) opts.maxFailures = true
    · rw [onTestEnd_fail_overflow opts hash8 t hterm hs hretry hguard]
      unfold failInv at h ⊢
      simp only [printFooter]
      omega
    · have hguard2 : exceedsMax (st.failureCount + 1) opts.maxFailures = false := by
        simpa using hguard
      rw [onTestEnd_fail_emit opts hash8 t hterm hs hretry hguard2]
      have he := emitFailure_counts opts hash8
        { st with totalDuration := st.totalDuration + r.duration,
                  failureCount := st.failureCount + 1,
                  failedTestIdCounts := setCount (failureIdOf hash8 t)
                    (lookupCount (failureIdOf hash8 t) st.failedTestIdCounts + 1)
                    st.failedTestIdCounts } t
      unfold failInv at h ⊢
      rw [he.1, he.2]
      simp only
      omega

theorem onTestEnd_failInv (opts : RepOptions) (hash8 : Str → Str) (t : TestInfo)
    (r : ResultInfo) {st : RepState} (h : failInv st) :
    failInv (onTestEnd opts hash8 st t r) := by
  by_cases hterm : st.terminated = true
  · rw [onTestEnd_terminated opts hash8 t r hterm]
    exact h
  · have hterm2 : st.terminated = false := by simpa using hterm
    cases hst : r.status with
    | skipped =>
      rw [onTestEnd_skipped opts hash8 t hterm2 hst]
      exact h
    | passed =>
      by_cases hr : r.retry = 0
      · rw [onTestEnd_passed_clean opts hash8 t hterm2 hst hr]
        have hd := deleteFailureReport_counts opts hash8
          { st with totalDuration := st.totalDuration + r.duration,
                    passedCount := st.passedCount + 1 } t
        unfold failInv at h ⊢
        rw [hd.1, hd.2]
        exact h
      · by_cases hp : 0 < lookupCount (failureIdOf hash8 t) st.failedTestIdCounts
        · rw [onTestEnd_flaky_correct opts hash8 t hterm2 hst hr hp]
          have hle := lookup_add_erase_le (failureIdOf hash8 t) st.failedTestIdCounts
          unfold failInv at h ⊢
          simp only
          omega
        · have hp0 : lookupCount (failureIdOf hash8 t) st.failedTestIdCounts = 0 := by
            omega
          rw [onTestEnd_flaky_fresh opts hash8 t hterm2 hst hr hp0]
          exact h
    | failed => exact onTestEnd_failInv_failing opts hash8 t hterm2 (Or.inl hst) h
    | timedOut =>
      exact onTestEnd_failInv_failing opts hash8 t hterm2 (Or.inr (Or.inl hst)) h
    | interrupted =>
      exact onTestEnd_failInv_failing opts hash8 t hterm2 (Or.inr (Or.inr hst)) h

/-! ## Claim C10: the failure count never becomes negative -/

/-- C10: over every sequence of `onTestEnd` events processed from the fresh
state, the failure count stays non-negative — the flaky-pass correction
subtracts exactly the contribution tracked in `failedTestIdCounts` and then
clears the entry, so the counter always dominates the tracked total. -/
theorem runTests_failureCount_nonneg (opts : RepOptions) (hash8 : Str → Str)
    (events : List (TestInfo × ResultInfo)) :
    0 ≤ (runTests opts hash8 events).failureCount := by
  have hfold : ∀ (evs : List (TestInfo × ResultInfo)) (st : RepState), failInv st →
      failInv (evs.foldl (fun s e => onTestEnd opts hash8 s e.1 e.2) st) := by
    intro evs
    induction evs with
    | nil => exact fun st h => h
    | cons e rest ih =>
      intro st h
      exact ih _ (onTestEnd_failInv opts hash8 e.1 e.2 h)
  have hinv : failInv (runTests opts hash8 events) :=
    hfold events initState (by simp [failInv, initState, countsTotal])
  unfold failInv at hinv
  have hnn : (0:Int) ≤
      (countsTotal (runTests opts hash8 events).failedTestIdCounts : Int) :=
    Int.natCast_nonneg _
  omega

/-! ### The overflow invariant (claim C1) -/

theorem deleteFailureReport_other (opts : RepOptions) (hash8 : Str → Str)
    (st : RepState) (t : TestInfo) :
    (deleteFailureReport opts hash8 st t).terminated = st.terminated ∧
      (deleteFailureReport opts hash8 st t).suppressedCount = st.suppressedCount ∧
      (deleteFailureReport opts hash8 st t).emittedSummary = st.emittedSummary ∧
      (deleteFailureReport opts hash8 st t).flakyCount = st.flakyCount ∧
      (deleteFailureReport opts hash8 st t).onDiskReports = st.onDiskReports := by
  by_cases he : opts.enableDetailedReport = false
  · simp [deleteFailureReport, he]
  · by_cases hm : reportFileName hash8 t ∈ st.existingReports
    · simp [deleteFailureReport, he, hm]
    · simp [deleteFailureReport, he, hm]

theorem emitFailure_other (opts : RepOptions) (hash8 : Str → Str)
    (st : RepState) (t : TestInfo) :
    (emitFailure opts hash8 st t).terminated = st.terminated ∧
      (emitFailure opts hash8 st t).suppressedCount = st.suppressedCount ∧
      (emitFailure opts hash8 st t).emittedSummary = st.emittedSummary ∧
      (emitFailure opts hash8 st t).flakyCount = st.flakyCount ∧
      (emitFailure opts hash8 st t).existingReports = st.existingReports ∧
      (emitFailure opts hash8 st t).onDiskReports = st.onDiskReports := by
  by_cases he : opts.enableDetailedReport = true
  · simp [emitFailure, he]
  · simp [emitFailure, he]

/-- Invariant behind the overflow protocol with a finite limit `M`: while
the run is live the failure count never exceeds `M` and nothing has been
suppressed; once the guard has fired, the emitted summary reports
`failureCount = M + 1` and `suppressedCount = 1`. -/
def overflowInv (M : Nat) (st : RepState) : Prop :=
  (st.terminated = false ∧ st.failureCount ≤ (M : Int) ∧ st.suppressedCount = 0) ∨
    (st.terminated = true ∧
      st.emittedSummary.map (fun s => s.failed) = some ((M : Int) + 1) ∧
      st.emittedSummary.map (fun s => s.suppressed) = some 1)

theorem onTestEnd_overflowInv_failing {M : Nat} {opts : RepOptions}
    (hM : opts.maxFailures = some M) (hash8 : Str → Str) (t : TestInfo)
    {r : ResultInfo} {st : RepState} (ht : st.terminated = false)
    (hfc : st.failureCount ≤ (M : Int)) (hsup : st.suppressedCount = 0)
    (hs : isFailingStatus r.status) :
    overflowInv M (onTestEnd opts hash8 st t r) := by
  by_cases hretry : r.retry < t.retries
  · rw [onTestEnd_fail_intermediate opts hash8 t ht hs hretry]
    exact Or.inl ⟨ht, hfc, hsup⟩
  · by_cases hguard : exceedsMax (st.failureCount + 1) opts.maxFailures = true
    · rw [onTestEnd_fail_overflow opts hash8 t ht hs hretry hguard]
      right
      have hgt : (M : Int) < st.failureCount + 1 := by
        simpa [exceedsMax, hM] using hguard
      have heq : st.failureCount + 1 = (M : Int) + 1 := by omega
      refine ⟨rfl, ?_, ?_⟩
      · simp [printFooter, heq]
      · simp [printFooter, hsup]
    · have hguard2 : exceedsMax (st.failureCount + 1) opts.maxFailures = false := by
        simpa using hguard
      rw [onTestEnd_fail_emit opts hash8 t ht hs hretry hguard2]
      have hle : st.failureCount + 1 ≤ (M : Int) := by
        by_contra hcon
        have : exceedsMax (st.failureCount + 1) opts.maxFailures = true := by
          simp [exceedsMax, hM]
          omega
        rw [this] at hguard2
        exact absurd hguard2 (by simp)
      have he := emitFailure_other opts hash8
        { st with totalDuration := st.totalDuration + r.duration,
                  failureCount := st.failureCount + 1,
                  failedTestIdCounts := setCount (failureIdOf hash8 t)
                    (lookupCount (failureIdOf hash8 t) st.failedTestIdCounts + 1)
                    st.failedTestIdCounts } t
      have hc := emitFailure_counts opts hash8
        { st with totalDuration := st.totalDuration + r.duration,
                  failureCount := st.failureCount + 1,
                  failedTestIdCounts := setCount (failureIdOf hash8 t)
                    (lookupCount (failureIdOf hash8 t) st.failedTestIdCounts + 1)
                    st.failedTestIdCounts } t
      left
      refine ⟨?_, ?_, ?_⟩
      · rw [he.1]
        exact ht
      · rw [hc.1]
        exact hle
      · rw [he.2.1]
        exact hsup

theorem onTestEnd_overflowInv {M : Nat} {opts : RepOptions}
    (hM : opts.maxFailures = some M) (hash8 : Str → Str) (t : TestInfo)
    (r : ResultInfo) {st : RepState} (hinv : overflowInv M st) :
    overflowInv M (onTestEnd opts hash8 st t r) := by
  rcases hinv with ⟨ht, hfc, hsup⟩ | ⟨ht, hs1, hs2⟩
  · cases hst : r.status with
    | skipped =>
      rw [onTestEnd_skipped opts hash8 t ht hst]
      exact Or.inl ⟨ht, hfc, hsup⟩
    | passed =>
      by_cases hr : r.retry = 0
      · rw [onTestEnd_passed_clean opts hash8 t ht hst hr]
        have hd := deleteFailureReport_other opts hash8
          { st with totalDuration := st.totalDuration + r.duration,
                    passedCount := st.passedCount + 1 } t
        have hc := deleteFailureReport_counts opts hash8
          { st with totalDuration := st.totalDuration + r.duration,
                    passedCount := st.passedCount + 1 } t
        left
        refine ⟨?_, ?_, ?_⟩
        · rw [hd.1]
          exact ht
        · rw [hc.1]
          exact hfc
        · rw [hd.2.1]
          exact hsup
      · by_cases hp : 0 < lookupCount (failureIdOf hash8 t) st.failedTestIdCounts
        · rw [onTestEnd_flaky_correct opts hash8 t ht hst hr hp]
          left
          refine ⟨ht, ?_, hsup⟩
          have : (0:Int) ≤ (lookupCount (failureIdOf hash8 t) st.failedTestIdCounts : Int) :=
            Int.natCast_nonneg _
          simp only
          omega
        · have hp0 : lookupCount (failureIdOf hash8 t) st.failedTestIdCounts = 0 := by
            omega
          rw [onTestEnd_flaky_fresh opts hash8 t ht hst hr hp0]
          exact Or.inl ⟨ht, hfc, hsup⟩
    | failed => exact onTestEnd_overflowInv_failing hM hash8 t ht hfc hsup (Or.inl hst)
    | timedOut =>
      exact onTestEnd_overflowInv_failing hM hash8 t ht hfc hsup (Or.inr (Or.inl hst))
    | interrupted =>
      exact onTestEnd_overflowInv_failing hM hash8 t ht hfc hsup (Or.inr (Or.inr hst))
  · rw [onTestEnd_terminated opts hash8 t r ht]
    exact Or.inr ⟨ht, hs1, hs2⟩

/-! ## Claim C1: accounting of the overflow guard -/

/-- C1 (amended): with a finite `maxFailures = M`, whenever the overflow
guard has fired during a run (the machine terminated), the summary it
emitted reports `failureCount = M + 1` — the limit plus the final-attempt
failure that triggered the guard, not `M` itself — and `suppressedCount = 1`,
which is the number of final-attempt failures processed beyond the limit
(always exactly one, because termination is immediate). -/
theorem runTests_overflow_summary (opts : RepOptions) (hash8 : Str → Str)
    (M : Nat) (events : List (TestInfo × ResultInfo))
    (hM : opts.maxFailures = some M)
    (hterm : (runTests opts hash8 events).terminated = true) :
    (runTests opts hash8 events).emittedSummary.map (fun s => s.failed) =
        some ((M : Int) + 1) ∧
      (runTests opts hash8 events).emittedSummary.map (fun s => s.suppressed) =
        some 1 := by
  have hfold : ∀ (evs : List (TestInfo × ResultInfo)) (st : RepState), overflowInv M st →
      overflowInv M (evs.foldl (fun s e => onTestEnd opts hash8 s e.1 e.2) st) := by
    intro evs
    induction evs with
    | nil => exact fun st h => h
    | cons e rest ih =>
      intro st h
      exact ih _ (onTestEnd_overflowInv hM hash8 e.1 e.2 h)
  have hinv : overflowInv M (runTests opts hash8 events) :=
    hfold events initState (Or.inl ⟨rfl, by simp [initState], rfl⟩)
  rcases hinv with ⟨ht, _, _⟩ | ⟨_, hs1, hs2⟩
  · rw [hterm] at ht
    exact absurd ht (by simp)
  · exact ⟨hs1, hs2⟩

/-- A fixed stand-in for the SHA-1 hex hash (any 8-character value). -/
def hashZeros : Str → Str := fun _ => str "00000000"

/-- Options with `maxFailures = 1` for the overflow scenario. -/
def overflowOpts : RepOptions := { maxFailures := some 1, enableDetailedReport := true }

/-- A test named `a` with no declared retries. -/
def testA : TestInfo := { titlePath := [str "a"], retries := 0 }

/-- A test named `b` with no declared retries. -/
def testB : TestInfo := { titlePath := [str "b"], retries := 0 }

/-- A final-attempt failed result. -/
def failResult : ResultInfo := { status := Status.failed, duration := 0, retry := 0 }

/-- Two final-attempt failures under `maxFailures = 1`. -/
def overflowEvents : List (TestInfo × ResultInfo) :=
  [(testA, failResult), (testB, failResult)]

/-- C1 counterexample: with `maxFailures = 1` and two final-attempt failures,
the guard fires and the emitted summary reports `failureCount = 2`, not
exactly `maxFailures = 1` as the claim states. -/
theorem overflow_summary_failed_ne_maxFailures :
    (runTests overflowOpts hashZeros overflowEvents).emittedSummary.map
        (fun s => s.failed) ≠ some 1 := by
  decide

/-- Witness for the amended C1 at the concrete overflow run. -/
theorem runTests_overflow_summary_witness :
    (runTests overflowOpts hashZeros overflowEvents).emittedSummary.map
        (fun s => s.failed) = some (((1:Nat) : Int) + 1) ∧
      (runTests overflowOpts hashZeros overflowEvents).emittedSummary.map
        (fun s => s.suppressed) = some 1 :=
  runTests_overflow_summary overflowOpts hashZeros 1 overflowEvents rfl (by decide)

/-! ### Intermediate attempts and settlement lemmas -/

theorem foldl_intermediate (opts : RepOptions) (hash8 : Str → Str) (t : TestInfo)
    (fails : List ResultInfo) :
    ∀ st : RepState, st.terminated = false →
      (∀ r ∈ fails, isFailingStatus r.status ∧ r.retry < t.retries) →
      (fails.foldl (fun s r => onTestEnd opts hash8 s t r) st).failureCount =
          st.failureCount ∧
        (fails.foldl (fun s r => onTestEnd opts hash8 s t r) st).flakyCount =
          st.flakyCount ∧
        (fails.foldl (fun s r => onTestEnd opts hash8 s t r) st).failedTestIdCounts =
          st.failedTestIdCounts ∧
        (fails.foldl (fun s r => onTestEnd opts hash8 s t r) st).terminated = false := by
  induction fails with
  | nil => exact fun st h _ => ⟨rfl, rfl, rfl, h⟩
  | cons r rest ih =>
    intro st hterm hall
    have h1 := hall r (List.mem_cons_self r rest)
    rw [List.foldl_cons, onTestEnd_fail_intermediate opts hash8 t hterm h1.1 h1.2]
    exact ih _ hterm (fun x hx => hall x (List.mem_cons_of_mem r hx))

theorem mem_insertName_self (n : Str) (l : List Str) : n ∈ insertName n l := by
  by_cases h : n ∈ l
  · simp [insertName, h]
  · simp [insertName, h]

theorem not_mem_removeName_self (n : Str) (l : List Str) : n ∉ removeName n l := by
  intro h
  simp only [removeName, List.mem_filter, decide_not] at h
  simp at h

theorem foldl_applyFileOp_fields (ops : List FileOp) :
    ∀ s : RepState,
      (ops.foldl applyFileOp s).terminated = s.terminated ∧
        (ops.foldl applyFileOp s).failureCount = s.failureCount ∧
        (ops.foldl applyFileOp s).flakyCount = s.flakyCount ∧
        (ops.foldl applyFileOp s).passedCount = s.passedCount ∧
        (ops.foldl applyFileOp s).skippedCount = s.skippedCount ∧
        (ops.foldl applyFileOp s).totalDuration = s.totalDuration ∧
        (ops.foldl applyFileOp s).suppressedCount = s.suppressedCount := by
  induction ops with
  | nil => exact fun s => ⟨rfl, rfl, rfl, rfl, rfl, rfl, rfl⟩
  | cons op rest ih =>
    intro s
    rw [List.foldl_cons]
    have h1 := ih (applyFileOp s op)
    cases op <;> exact h1

theorem settleFileOps_fields (s : RepState) :
    (settleFileOps s).terminated = s.terminated ∧
      (settleFileOps s).failureCount = s.failureCount ∧
      (settleFileOps s).flakyCount = s.flakyCount ∧
      (settleFileOps s).passedCount = s.passedCount ∧
      (settleFileOps s).skippedCount = s.skippedCount ∧
      (settleFileOps s).totalDuration = s.totalDuration ∧
      (settleFileOps s).suppressedCount = s.suppressedCount := by
  unfold settleFileOps
  exact foldl_applyFileOp_fields s.pendingFileOps s

theorem settle_mem_of_write_last (s : RepState) (ops : List FileOp) (n : Str)
    (h : s.pendingFileOps = ops ++ [FileOp.write n]) :
    n ∈ (settleFileOps s).existingReports ∧ n ∈ (settleFileOps s).onDiskReports := by
  unfold settleFileOps
  rw [h, List.foldl_append]
  simp only [List.foldl_cons, List.foldl_nil, applyFileOp]
  exact ⟨mem_insertName_self _ _, mem_insertName_self _ _⟩

/-! ## Claim C4: a flaky pass within declared retries -/

/-- C4: for a test whose failing attempts all occur at a retry index strictly
below its declared `retries` and which then passes with `retry > 0` (with no
prior tracked contribution for its identity), the failure count is left
exactly as it was, the flaky count is incremented exactly once, and the final
summary printed by `onEnd` reports those values. -/
theorem flaky_within_retries_counts (opts : RepOptions) (hash8 : Str → Str)
    (st : RepState) (t : TestInfo) (fails : List ResultInfo) (rPass : ResultInfo)
    (hterm : st.terminated = false)
    (hfresh : lookupCount (failureIdOf hash8 t) st.failedTestIdCounts = 0)
    (hfails : ∀ r ∈ fails, isFailingStatus r.status ∧ r.retry < t.retries)
    (hstatus : rPass.status = Status.passed) (hretry : rPass.retry ≠ 0) :
    (onTestEnd opts hash8 (fails.foldl (fun s r => onTestEnd opts hash8 s t r) st)
        t rPass).failureCount = st.failureCount ∧
      (onTestEnd opts hash8 (fails.foldl (fun s r => onTestEnd opts hash8 s t r) st)
        t rPass).flakyCount = st.flakyCount + 1 ∧
      (onEnd (onTestEnd opts hash8
          (fails.foldl (fun s r => onTestEnd opts hash8 s t r) st) t rPass)
        (str "passed")).emittedSummary.map (fun s => s.failed) =
        some st.failureCount ∧
      (onEnd (onTestEnd opts hash8
          (fails.foldl (fun s r => onTestEnd opts hash8 s t r) st) t rPass)
        (str "passed")).emittedSummary.map (fun s => s.flaky) =
        some (st.flakyCount + 1) := by
  obtain ⟨hfc, hflaky, hmap, hterm2⟩ := foldl_intermediate opts hash8 t fails st hterm hfails
  have hfresh2 : lookupCount (failureIdOf hash8 t)
      (fails.foldl (fun s r => onTestEnd opts hash8 s t r) st).failedTestIdCounts = 0 := by
    rw [hmap]
    exact hfresh
  rw [onTestEnd_flaky_fresh opts hash8 t hterm2 hstatus hretry hfresh2]
  refine ⟨hfc, by rw [hflaky], ?_, ?_⟩
  · simp only [onEnd, printFooter]
    rw [(settleFileOps_fields _).2.1]
    simp only [Option.map, hfc]
  · simp only [onEnd, printFooter]
    rw [(settleFileOps_fields _).2.2.1]
    simp only [Option.map]
    rw [hflaky]

/-- Options with unbounded `maxFailures`. -/
def plainOpts : RepOptions := { maxFailures := none, enableDetailedReport := true }

/-- A test named `f` that declares one retry. -/
def flakyTest : TestInfo := { titlePath := [str "f"], retries := 1 }

/-- A failing attempt at retry 0 (strictly below the declared retries). -/
def flakyFailAttempt : ResultInfo := { status := Status.failed, duration := 5, retry := 0 }

/-- The subsequent passing attempt at retry 1. -/
def flakyPassAttempt : ResultInfo := { status := Status.passed, duration := 3, retry := 1 }

/-- Witness for C4 at a concrete flaky run. -/
theorem flaky_within_retries_counts_witness :
    (onTestEnd plainOpts hashZeros
        ([flakyFailAttempt].foldl
          (fun s r => onTestEnd plainOpts hashZeros s flakyTest r) initState)
        flakyTest flakyPassAttempt).failureCount = initState.failureCount ∧
      (onTestEnd plainOpts hashZeros
        ([flakyFailAttempt].foldl
          (fun s r => onTestEnd plainOpts hashZeros s flakyTest r) initState)
        flakyTest flakyPassAttempt).flakyCount = initState.flakyCount + 1 ∧
      (onEnd (onTestEnd plainOpts hashZeros
          ([flakyFailAttempt].foldl
            (fun s r => onTestEnd plainOpts hashZeros s flakyTest r) initState)
          flakyTest flakyPassAttempt)
        (str "passed")).emittedSummary.map (fun s => s.failed) =
        some initState.failureCount ∧
      (onEnd (onTestEnd plainOpts hashZeros
          ([flakyFailAttempt].foldl
            (fun s r => onTestEnd plainOpts hashZeros s flakyTest r) initState)
          flakyTest flakyPassAttempt)
        (str "passed")).emittedSummary.map (fun s => s.flaky) =
        some (initState.flakyCount + 1) :=
  flaky_within_retries_counts plainOpts hashZeros initState flakyTest
    [flakyFailAttempt] flakyPassAttempt rfl rfl
    (by
      intro r hr
      rw [List.mem_singleton] at hr
      subst hr
      exact ⟨Or.inl rfl, by decide⟩)
    rfl (by decide)

/-! ## Claim C3: persist-then-retract round trip -/

theorem emit_then_settle (opts : RepOptions) (hash8 : Str → Str) (t : TestInfo)
    {st : RepState} {rFail : ResultInfo} (hEn : opts.enableDetailedReport = true)
    (hterm : st.terminated = false) (hfail : isFailingStatus rFail.status)
    (hfinal : ¬ rFail.retry < t.retries)
    (hguard : exceedsMax (st.failureCount + 1) opts.maxFailures = false) :
    (settleFileOps (onTestEnd opts hash8 st t rFail)).terminated = false ∧
      reportFileName hash8 t ∈
        (settleFileOps (onTestEnd opts hash8 st t rFail)).existingReports ∧
      (settleFileOps (onTestEnd opts hash8 st t rFail)).pendingFileOps = [] := by
  rw [onTestEnd_fail_emit opts hash8 t hterm hfail hfinal hguard]
  have hemit : emitFailure opts hash8
      { st with totalDuration := st.totalDuration + rFail.duration,
                failureCount := st.failureCount + 1,
                failedTestIdCounts := setCount (failureIdOf hash8 t)
                  (lookupCount (failureIdOf hash8 t) st.failedTestIdCounts + 1)
                  st.failedTestIdCounts } t =
      { st with totalDuration := st.totalDuration + rFail.duration,
                failureCount := st.failureCount + 1,
                failedTestIdCounts := setCount (failureIdOf hash8 t)
                  (lookupCount (failureIdOf hash8 t) st.failedTestIdCounts + 1)
                  st.failedTestIdCounts,
                pendingFileOps :=
                  st.pendingFileOps ++ [FileOp.write (reportFileName hash8 t)] } := by
    simp [emitFailure, hEn]
  rw [hemit]
  refine ⟨?_, ?_, rfl⟩
  · rw [(settleFileOps_fields _).1]
    exact hterm
  · exact (settle_mem_of_write_last _ st.pendingFileOps _ rfl).1

theorem retract_then_settle (opts : RepOptions) (hash8 : Str → Str) (t : TestInfo)
    {s2 : RepState} {rPass : ResultInfo} (hEn : opts.enableDetailedReport = true)
    (hterm : s2.terminated = false)
    (hmem : reportFileName hash8 t ∈ s2.existingReports)
    (hpend : s2.pendingFileOps = [])
    (hpass : rPass.status = Status.passed) (hr0 : rPass.retry = 0) :
    reportFileName hash8 t ∉
        (settleFileOps (onTestEnd opts hash8 s2 t rPass)).onDiskReports ∧
      reportFileName hash8 t ∉
        (settleFileOps (onTestEnd opts hash8 s2 t rPass)).existingReports := by
  rw [onTestEnd_passed_clean opts hash8 t hterm hpass hr0]
  have hdel : deleteFailureReport opts hash8
      { s2 with totalDuration := s2.totalDuration + rPass.duration,
                passedCount := s2.passedCount + 1 } t =
      { s2 with totalDuration := s2.totalDuration + rPass.duration,
                passedCount := s2.passedCount + 1,
                existingReports := removeName (reportFileName hash8 t) s2.existingReports,
                pendingFileOps := [FileOp.del (reportFileName hash8 t)] } := by
    simp [deleteFailureReport, hEn, hmem, hpend]
  rw [hdel]
  have hsettle : settleFileOps
      { s2 with totalDuration := s2.totalDuration + rPass.duration,
                passedCount := s2.passedCount + 1,
                existingReports := removeName (reportFileName hash8 t) s2.existingReports,
                pendingFileOps := [FileOp.del (reportFileName hash8 t)] } =
      { s2 with totalDuration := s2.totalDuration + rPass.duration,
                passedCount := s2.passedCount + 1,
                existingReports := removeName (reportFileName hash8 t) s2.existingReports,
                pendingFileOps := [],
                onDiskReports := removeName (reportFileName hash8 t) s2.onDiskReports } := by
    simp [settleFileOps, applyFileOp]
  rw [hsettle]
  exact ⟨not_mem_removeName_self _ _, not_mem_removeName_self _ _⟩

/-- C4-style event orderings are covered above; this is C3: if a failing
final attempt persists a detail file (the write is scheduled and settles,
registering the file name in `existingReports`), and the identity is later
retracted because the test passes cleanly at retry 0, then after all pending
file operations settle no file exists at that identity's detail path and its
file name is no longer in `existingReports`. -/
theorem persist_then_retract (opts : RepOptions) (hash8 : Str → Str)
    (st : RepState) (t : TestInfo) (rFail rPass : ResultInfo)
    (hEn : opts.enableDetailedReport = true)
    (hterm : st.terminated = false)
    (hfail : isFailingStatus rFail.status)
    (hfinal : ¬ rFail.retry < t.retries)
    (hnoterm : (onTestEnd opts hash8 st t rFail).terminated = false)
    (hpass : rPass.status = Status.passed) (hr0 : rPass.retry = 0) :
    reportFileName hash8 t ∉
        (settleFileOps (onTestEnd opts hash8
          (settleFileOps (onTestEnd opts hash8 st t rFail)) t rPass)).onDiskReports ∧
      reportFileName hash8 t ∉
        (settleFileOps (onTestEnd opts hash8
          (settleFileOps (onTestEnd opts hash8 st t rFail)) t rPass)).existingReports := by
  by_cases hguard : exceedsMax (st.failureCount + 1) opts.maxFailures = true
  · exfalso
    rw [onTestEnd_fail_overflow opts hash8 t hterm hfail hfinal hguard] at hnoterm
    simp [printFooter] at hnoterm
  · have hguard2 : exceedsMax (st.failureCount + 1) opts.maxFailures = false := by
      simpa using hguard
    obtain ⟨h1, h2, h3⟩ := emit_then_settle opts hash8 t hEn hterm hfail hfinal hguard2
    exact retract_then_settle opts hash8 t hEn h1 h2 h3 hpass hr0

/-- A failing final attempt for the retract scenario (no declared retries,
so retry 0 is final). -/
def retractFail : ResultInfo := { status := Status.timedOut, duration := 7, retry := 0 }

/-- The clean pass at retry 0 that retracts the detail file. -/
def retractPass : ResultInfo := { status := Status.passed, duration := 2, retry := 0 }

/-- Witness for C3 at a concrete persist-then-retract run. -/
theorem persist_then_retract_witness :
    reportFileName hashZeros testA ∉
        (settleFileOps (onTestEnd plainOpts hashZeros
          (settleFileOps (onTestEnd plainOpts hashZeros initState testA retractFail))
          testA retractPass)).onDiskReports ∧
      reportFileName hashZeros testA ∉
        (settleFileOps (onTestEnd plainOpts hashZeros
          (settleFileOps (onTestEnd plainOpts hashZeros initState testA retractFail))
          testA retractPass)).existingReports :=
  persist_then_retract plainOpts hashZeros initState testA retractFail retractPass
    rfl rfl (Or.inr (Or.inl rfl)) (by decide) (by decide) rfl rfl

/-! ## Claim C2: sanitizeId idempotence and length bound -/

/-- C2 counterexample: `sanitizeId` of `src/formatter.ts` is not idempotent
for any 8-character hash function — each application appends a fresh
`_`-plus-8-character hash suffix, so re-sanitising `sanitizeId("a")` (10
characters) yields a 19-character string.  This falsifies the claimed
idempotence `sanitizeId(sanitizeId(s)) = sanitizeId(s)`. -/
theorem sanitizeId_not_idempotent :
    ¬ ∀ hash8 : Str → Str, (∀ x, (hash8 x).length = 8) →
        ∀ s : Str, sanitizeId hash8 (sanitizeId hash8 s) = sanitizeId hash8 s := by
  intro h
  have h1 := h hashZeros (fun _ => rfl) (str "a")
  have h2 : sanitizeId hashZeros (sanitizeId hashZeros (str "a")) ≠
      sanitizeId hashZeros (str "a") := by decide
  exact h2 h1

/-- C2 (amended): the length bound holds — for every 8-character hash
function and every input string, however long, `sanitizeId`'s output has at
most 209 characters — and idempotence holds for the sanitation core without
the hash suffix: the earlier collapse-only `sanitizeIdV1` satisfies
`sanitizeIdV1(sanitizeIdV1(s)) = sanitizeIdV1(s)` for every string.  The
hash-appending `sanitizeId` itself is not idempotent (see the
counterexample). -/
theorem sanitizeId_bounded_and_v1_idem (hash8 : Str → Str)
    (hlen : ∀ x, (hash8 x).length = 8) :
    (∀ s, (sanitizeId hash8 s).length ≤ 209) ∧
      ∀ s, sanitizeIdV1 (sanitizeIdV1 s) = sanitizeIdV1 s :=
  ⟨sanitizeId_length_le hash8 hlen, sanitizeIdV1_idem⟩

/-- Witness for the amended C2 at a concrete hash and inputs. -/
theorem sanitizeId_bounded_and_v1_idem_witness :
    (sanitizeId hashZeros (str "a")).length ≤ 209 ∧
      sanitizeIdV1 (sanitizeIdV1 (str "a b_c")) = sanitizeIdV1 (str "a b_c") :=
  ⟨(sanitizeId_bounded_and_v1_idem hashZeros (fun _ => rfl)).1 (str "a"),
    (sanitizeId_bounded_and_v1_idem hashZeros (fun _ => rfl)).2 (str "a b_c")⟩
